import Mathlib

/-!
Verification development for the Rust-Audio-Slicer repository.

The development shallowly embeds the core of `src/slicer.rs` (the `Slicer`
configuration and constructor, the `slice` scan, `merge_short_chunks`, and
`is_silence`) and the per-file error-handling / statistics-aggregation
control flow of `src/main.rs`.

Embedding conventions:
* Audio samples and thresholds are exact rationals (`ℚ`) standing in for
  the `f32` values of the source; all derived quantities are computed with
  exact rational arithmetic.  `f32::round` (round half away from zero, on
  the nonnegative values occurring here) is modelled by `ratRound`.
* The linear silence threshold `10^(threshold_db/20)` is transcendental,
  so `Slicer.new` receives the already-derived linear threshold as an
  extra rational parameter `thr`; no theorem below depends on its exact
  value, only (at most) on its positivity.
* `usize` subtraction is modelled by `usizeSub`, the two's-complement
  wrap-around of release-mode Rust (valid whenever the negative excess is
  below `2^64`, as it always is for indices of an in-memory buffer).  In
  a debug build the same underflow would panic instead; either way the
  subtraction leaves the plain-`Nat` domain exactly where `usizeSub`
  differs from truncated subtraction.
* Comparing a window's RMS `sqrt(Σx²/n) < t` is implemented by the
  equivalent rational test `0 < t ∧ Σx² < t² * n`; for an empty window the
  Rust code computes `sqrt(0/0) = NaN`, and `NaN < t` is `false`, which the
  rational test also returns.
-/

/-- Two's-complement wrap-around of `usize` subtraction `a - b` in release
mode, assuming the true difference fits in 64 bits. -/
def usizeSub (a b : ℕ) : ℕ :=
  if b ≤ a then a - b else 2 ^ 64 - (b - a)

/-- `f32::round` (round half away from zero) on a nonnegative rational,
cast to `usize`. -/
def ratRound (q : ℚ) : ℕ :=
  (⌊q + 1 / 2⌋).toNat

/-- Configuration parameters of the slicer (`SlicerConfig` in
`src/slicer.rs`).  `threshold_db` is kept for structural fidelity; the
derived linear threshold is passed to `Slicer.new` separately (see the
module docstring). -/
structure SlicerConfig where
  sample_rate : ℕ
  threshold_db : ℚ
  min_length_ms : ℕ
  min_interval_ms : ℕ
  hop_size_ms : ℕ
  max_silence_ms : ℕ
deriving DecidableEq, Repr

/-- The derived slicer (`Slicer` in `src/slicer.rs`): all time quantities
converted to sample counts / hop counts at construction. -/
structure Slicer where
  hop_size : ℕ
  win_size : ℕ
  min_length : ℕ
  min_interval : ℕ
  max_silence : ℕ
  threshold : ℚ
deriving DecidableEq, Repr

/-- `Slicer::new`: validates the millisecond invariants, then derives the
sample/hop geometry.  `thr` is the rational stand-in for the linear
threshold `10^(threshold_db/20)` computed by the Rust code. -/
def Slicer.new (cfg : SlicerConfig) (thr : ℚ) : Except String Slicer :=
  if cfg.min_length_ms < cfg.min_interval_ms ∨ cfg.min_interval_ms < cfg.hop_size_ms then
    .error "必须满足: min_length >= min_interval >= hop_size"
  else if cfg.max_silence_ms < cfg.hop_size_ms then
    .error "必须满足: max_silence >= hop_size"
  else
    let hop_size := ratRound ((cfg.sample_rate : ℚ) * (cfg.hop_size_ms : ℚ) / 1000)
    let min_interval_samples := ratRound ((cfg.sample_rate : ℚ) * (cfg.min_interval_ms : ℚ) / 1000)
    let win_size := min min_interval_samples (4 * hop_size)
    .ok
      { hop_size := hop_size
        win_size := win_size
        min_length :=
          ratRound ((cfg.sample_rate : ℚ) * (cfg.min_length_ms : ℚ) / 1000 / (hop_size : ℚ))
        min_interval := ratRound ((min_interval_samples : ℚ) / (hop_size : ℚ))
        max_silence :=
          ratRound ((cfg.sample_rate : ℚ) * (cfg.max_silence_ms : ℚ) / 1000 / (hop_size : ℚ))
        threshold := thr }

/-- Sum of squared samples of a window. -/
def sumSq (xs : List ℚ) : ℚ :=
  (xs.map fun x => x * x).sum

/-- The comparison `rms(xs) < t` of the Rust code, expressed as an exact
rational test (see the module docstring for the `NaN` case of an empty
window). -/
def rmsLtB (xs : List ℚ) (t : ℚ) : Bool :=
  decide (0 < t ∧ sumSq xs < t ^ 2 * xs.length)

/-- Number of frames analysed by `slice`: `samples.len().div_ceil(hop_size)`.
(For `hop_size = 0` the Rust code panics with a division by zero; every
theorem below assumes `1 ≤ hop_size`, under which this formula is exactly
the ceiling division.) -/
def frameCount (s : Slicer) (len : ℕ) : ℕ :=
  (len + s.hop_size - 1) / s.hop_size

/-- The RMS window of frame `i`: `samples[i*hop_size .. min(i*hop_size + win_size, len)]`. -/
def frameWindow (s : Slicer) (samples : List ℚ) (i : ℕ) : List ℚ :=
  (samples.drop (i * s.hop_size)).take s.win_size

/-- Whether frame `i` is classified sub-threshold (`rms[i] < threshold`). -/
def frameSilent (s : Slicer) (samples : List ℚ) (i : ℕ) : Bool :=
  rmsLtB (frameWindow s samples i) s.threshold

/-- Mutable state of the scan loop of `Slicer::slice`. -/
structure ScanState where
  chunks : List (ℕ × ℕ)
  silence_start : Option ℕ
  clip_start : ℕ
deriving DecidableEq, Repr

/-- One iteration of the scan loop of `Slicer::slice` at frame `i`, where
`isSil` is the result of the `rms_val < self.threshold` test. -/
def scanStep (s : Slicer) (st : ScanState) (i : ℕ) (isSil : Bool) : ScanState :=
  if isSil then
    match st.silence_start with
    | none => { st with silence_start := some i }
    | some _ => st
  else
    match st.silence_start with
    | none => st
    | some sil =>
      if s.max_silence < usizeSub i sil then
        let clip_end := sil + s.min_interval
        { chunks :=
            if s.min_length ≤ usizeSub clip_end st.clip_start then
              st.chunks ++ [(st.clip_start, clip_end)]
            else st.chunks
          silence_start := none
          clip_start := clip_end }
      else { st with silence_start := none }

/-- The scan loop of `Slicer::slice` over the first `n` frames. -/
def scanFrames (s : Slicer) (silent : ℕ → Bool) (n : ℕ) : ScanState :=
  (List.range n).foldl (fun st i => scanStep s st i (silent i)) ⟨[], none, 0⟩

/-- `Slicer::slice`: scan all frames, then flush the tail
(`if frame_count - clip_start >= min_length { push (clip_start, frame_count) }`). -/
def Slicer.slice (s : Slicer) (samples : List ℚ) : List (ℕ × ℕ) :=
  let fc := frameCount s samples.length
  let st := scanFrames s (frameSilent s samples) fc
  if s.min_length ≤ usizeSub fc st.clip_start then
    st.chunks ++ [(st.clip_start, fc)]
  else st.chunks

/-- The running-range loop of `merge_short_chunks`, written as structural
recursion on the remaining chunks: `(cs, ce)` is the running range, a flush
emits it and reseeds from the next chunk, and the final running range is
always emitted. -/
def mergeLoop (max_frames hop : ℕ) (cs ce : ℕ) : List (ℕ × ℕ) → List (ℕ × ℕ)
  | [] => [(cs, ce)]
  | (s, e) :: rest =>
    if (ce - cs) * hop + (e - s) * hop ≤ max_frames then
      mergeLoop max_frames hop cs e rest
    else
      (cs, ce) :: mergeLoop max_frames hop s e rest

/-- `merge_short_chunks` from `src/slicer.rs`.  `max_frames` truncates
`max_duration_ms * sample_rate / 1000` toward zero, as the `as usize` cast
does.  The chunk subtractions are written with truncated `Nat` subtraction:
they never underflow on the ordered inputs of the theorems below (on a
disordered input the release build would instead wrap around). -/
def merge_short_chunks (chunks : List (ℕ × ℕ)) (max_duration_ms sample_rate : ℕ)
    (hop_size : ℕ) : List (ℕ × ℕ) :=
  match chunks with
  | [] => []
  | (s, e) :: rest => mergeLoop (max_duration_ms * sample_rate / 1000) hop_size s e rest

/-- `is_silence` from `src/slicer.rs`: empty is silent; low overall RMS is
silent; otherwise silent exactly when the count of samples with
`|x| > threshold` is below `min_audio_ratio` times the length. -/
def is_silence (samples : List ℚ) (threshold : ℚ) ( min_audio_ratio : ℚ) : Bool :=
  if samples.isEmpty then true
  else if rmsLtB samples threshold then true
  else decide (((samples.countP fun x => decide (threshold < |x|)) : ℚ) <
    min_audio_ratio * samples.length)

/-- The ordering guarantee claimed for chunk lists: every range is a
nonempty half-open interval and consecutive ranges do not overlap, with
strictly increasing bounds. -/
def ChunksSorted (l : List (ℕ × ℕ)) : Prop :=
  (∀ c ∈ l, c.1 < c.2) ∧ l.Chain' (fun a b => a.2 ≤ b.1)

instance (l : List (ℕ × ℕ)) : Decidable (ChunksSorted l) :=
  inferInstanceAs
    (Decidable ((∀ c ∈ l, c.1 < c.2) ∧ l.Chain' (fun a b : ℕ × ℕ => a.2 ≤ b.1)))

/-- Every range of the list has length at least `m` hops. -/
def MinLen (m : ℕ) (l : List (ℕ × ℕ)) : Prop :=
  ∀ c ∈ l, c.1 + m ≤ c.2

instance (m : ℕ) (l : List (ℕ × ℕ)) : Decidable (MinLen m l) :=
  inferInstanceAs (Decidable (∀ c ∈ l, c.1 + m ≤ c.2))

/-- Hop-index frame `f` is covered by some range of the list. -/
def Covers (l : List (ℕ × ℕ)) (f : ℕ) : Prop :=
  ∃ c ∈ l, c.1 ≤ f ∧ f < c.2

instance (l : List (ℕ × ℕ)) (f : ℕ) : Decidable (Covers l f) :=
  inferInstanceAs (Decidable (∃ c ∈ l, c.1 ≤ f ∧ f < c.2))

/-- Largest range end among `ce` and the ends of `l`. -/
def maxEnd (ce : ℕ) (l : List (ℕ × ℕ)) : ℕ :=
  match l with
  | [] => ce
  | c :: rest => max c.2 (maxEnd ce rest)

/-! ### Basic lemmas about the embedding primitives -/

theorem usizeSub_of_le {a b : ℕ} (h : b ≤ a) : usizeSub a b = a - b := by
  simp [usizeSub, h]

theorem one_le_ratRound {q : ℚ} (h : 1 / 2 ≤ q) : 1 ≤ ratRound q := by
  have h1 : (1 : ℤ) ≤ ⌊q + 1 / 2⌋ := by
    rw [Int.le_floor]
    push_cast
    linarith
  unfold ratRound
  omega

theorem half_le_of_one_le_ratRound {q : ℚ} (h : 1 ≤ ratRound q) : 1 / 2 ≤ q := by
  unfold ratRound at h
  have h1 : (1 : ℤ) ≤ ⌊q + 1 / 2⌋ := by omega
  rw [Int.le_floor] at h1
  push_cast at h1
  linarith

theorem ratRound_mono {q r : ℚ} (h : q ≤ r) : ratRound q ≤ ratRound r := by
  unfold ratRound
  have h1 : ⌊q + 1 / 2⌋ ≤ ⌊r + 1 / 2⌋ := Int.floor_le_floor (by linarith)
  omega

theorem ratRound_le {q : ℚ} (h : 0 ≤ q) : (ratRound q : ℚ) ≤ q + 1 / 2 := by
  unfold ratRound
  have h1 : (⌊q + 1 / 2⌋ : ℚ) ≤ q + 1 / 2 := Int.floor_le _
  have h2 : (0 : ℤ) ≤ ⌊q + 1 / 2⌋ := by
    rw [Int.le_floor]
    push_cast
    linarith
  have h3 : ((⌊q + 1 / 2⌋.toNat : ℕ) : ℚ) = ((⌊q + 1 / 2⌋ : ℤ) : ℚ) := by
    exact_mod_cast congrArg (fun z : ℤ => (z : ℚ)) (Int.toNat_of_nonneg h2)
  rw [h3]
  exact h1

theorem scanFrames_succ (s : Slicer) (silent : ℕ → Bool) (n : ℕ) :
    scanFrames s silent (n + 1) = scanStep s (scanFrames s silent n) n (silent n) := by
  unfold scanFrames
  rw [List.range_succ, List.foldl_append]
  rfl

/-- Unpacking of a successful `Slicer::new`: the millisecond invariants
hold and each derived field has its defining value. -/
theorem Slicer.new_ok {cfg : SlicerConfig} {thr : ℚ} {s : Slicer}
    (h : Slicer.new cfg thr = .ok s) :
    cfg.min_interval_ms ≤ cfg.min_length_ms ∧
    cfg.hop_size_ms ≤ cfg.min_interval_ms ∧
    cfg.hop_size_ms ≤ cfg.max_silence_ms ∧
    s.hop_size = ratRound ((cfg.sample_rate : ℚ) * (cfg.hop_size_ms : ℚ) / 1000) ∧
    s.win_size = min (ratRound ((cfg.sample_rate : ℚ) * (cfg.min_interval_ms : ℚ) / 1000))
      (4 * s.hop_size) ∧
    s.min_length =
      ratRound ((cfg.sample_rate : ℚ) * (cfg.min_length_ms : ℚ) / 1000 / (s.hop_size : ℚ)) ∧
    s.min_interval =
      ratRound ((ratRound ((cfg.sample_rate : ℚ) * (cfg.min_interval_ms : ℚ) / 1000) : ℚ) /
        (s.hop_size : ℚ)) ∧
    s.max_silence =
      ratRound ((cfg.sample_rate : ℚ) * (cfg.max_silence_ms : ℚ) / 1000 / (s.hop_size : ℚ)) ∧
    s.threshold = thr := by
  unfold Slicer.new at h
  by_cases h1 : cfg.min_length_ms < cfg.min_interval_ms ∨ cfg.min_interval_ms < cfg.hop_size_ms
  · simp [h1] at h
  by_cases h2 : cfg.max_silence_ms < cfg.hop_size_ms
  · simp [h1, h2] at h
  simp only [if_neg h1, if_neg h2, Except.ok.injEq] at h
  push_neg at h1
  subst h
  exact ⟨h1.1, h1.2, not_lt.mp h2, rfl, rfl, rfl, rfl, rfl, rfl⟩

/-! ### Derived geometry of a successfully constructed slicer -/

theorem Slicer.one_le_win_size {cfg : SlicerConfig} {thr : ℚ} {s : Slicer}
    (h : Slicer.new cfg thr = .ok s) (hh : 1 ≤ s.hop_size) : 1 ≤ s.win_size := by
  obtain ⟨-, hmi, -, hhop, hwin, -⟩ := Slicer.new_ok h
  have hmono :
      ratRound ((cfg.sample_rate : ℚ) * (cfg.hop_size_ms : ℚ) / 1000) ≤
        ratRound ((cfg.sample_rate : ℚ) * (cfg.min_interval_ms : ℚ) / 1000) := by
    apply ratRound_mono
    have hle : (cfg.hop_size_ms : ℚ) ≤ (cfg.min_interval_ms : ℚ) := by exact_mod_cast hmi
    have hsr : (0 : ℚ) ≤ (cfg.sample_rate : ℚ) := by positivity
    apply div_le_div_of_nonneg_right ?_ (by norm_num)
    exact mul_le_mul_of_nonneg_left hle hsr
  rw [hwin]
  rw [hhop] at hh
  omega

theorem Slicer.one_le_min_length {cfg : SlicerConfig} {thr : ℚ} {s : Slicer}
    (h : Slicer.new cfg thr = .ok s) (hh : 1 ≤ s.hop_size) : 1 ≤ s.min_length := by
  obtain ⟨hml, hmi, -, hhop, -, hlen, -⟩ := Slicer.new_ok h
  have hx0 : (0 : ℚ) ≤ (cfg.sample_rate : ℚ) * (cfg.hop_size_ms : ℚ) / 1000 := by positivity
  have hyx : (cfg.sample_rate : ℚ) * (cfg.hop_size_ms : ℚ) / 1000 ≤
      (cfg.sample_rate : ℚ) * (cfg.min_length_ms : ℚ) / 1000 := by
    have hle : (cfg.hop_size_ms : ℚ) ≤ (cfg.min_length_ms : ℚ) := by
      exact_mod_cast le_trans hmi hml
    have hsr : (0 : ℚ) ≤ (cfg.sample_rate : ℚ) := by positivity
    apply div_le_div_of_nonneg_right ?_ (by norm_num)
    exact mul_le_mul_of_nonneg_left hle hsr
  have h12 : (1 : ℚ) / 2 ≤ (cfg.sample_rate : ℚ) * (cfg.hop_size_ms : ℚ) / 1000 :=
    half_le_of_one_le_ratRound (hhop ▸ hh)
  have hhople : ((s.hop_size : ℕ) : ℚ) ≤ (cfg.sample_rate : ℚ) * (cfg.hop_size_ms : ℚ) / 1000 + 1 / 2 := by
    rw [hhop]
    exact ratRound_le hx0
  have hhop0 : (0 : ℚ) < ((s.hop_size : ℕ) : ℚ) := by exact_mod_cast hh
  rw [hlen]
  apply one_le_ratRound
  rw [le_div_iff₀ hhop0]
  linarith

theorem mul_hop_lt_of_lt_frameCount {s : Slicer} {len i : ℕ}
    (hh : 1 ≤ s.hop_size) (hi : i < frameCount s len) : i * s.hop_size < len := by
  unfold frameCount at hi
  have h1 : (i + 1) * s.hop_size ≤ (len + s.hop_size - 1) / s.hop_size * s.hop_size :=
    Nat.mul_le_mul_right _ (by omega)
  have h2 := Nat.div_mul_le_self (len + s.hop_size - 1) s.hop_size
  have h3 := le_trans h1 h2
  rw [Nat.succ_mul] at h3
  generalize i * s.hop_size = k at h3 ⊢
  omega

theorem frameWindow_length {s : Slicer} {samples : List ℚ} {i : ℕ}
    (hw : 1 ≤ s.win_size) (hlt : i * s.hop_size < samples.length) :
    1 ≤ (frameWindow s samples i).length := by
  unfold frameWindow
  rw [List.length_take, List.length_drop]
  omega

/-! ### The scan-loop invariant of `Slicer::slice` -/

theorem chain'_append_singleton {l : List (ℕ × ℕ)} {c : ℕ × ℕ}
    (hl : l.Chain' (fun a b => a.2 ≤ b.1)) (hle : ∀ d ∈ l, d.2 ≤ c.1) :
    (l ++ [c]).Chain' (fun a b => a.2 ≤ b.1) := by
  rw [List.chain'_append]
  refine ⟨hl, List.chain'_singleton _, ?_⟩
  intro x hx y hy
  simp only [List.head?_cons, Option.mem_def, Option.some.injEq] at hy
  subst hy
  obtain ⟨hne, hx1⟩ := List.mem_getLast?_eq_getLast hx
  exact hle _ (hx1 ▸ List.getLast_mem hne)

/-- Invariant of the scan loop after processing frames `0..i`: the clip
start never runs ahead of the scan position, a recorded silence start lies
between the clip start and the scan position, and the chunks emitted so
far are ordered, non-overlapping, below the clip start and of length at
least `min_length`.  The first two components need
`min_interval ≤ max_silence + 1`. -/
def ScanInv (s : Slicer) (i : ℕ) (st : ScanState) : Prop :=
  st.clip_start ≤ i ∧
  (∀ j, st.silence_start = some j → st.clip_start ≤ j ∧ j < i) ∧
  MinLen s.min_length st.chunks ∧
  (∀ c ∈ st.chunks, c.2 ≤ st.clip_start) ∧
  st.chunks.Chain' (fun a b => a.2 ≤ b.1)

theorem scanStep_inv {s : Slicer} {i : ℕ} {st : ScanState}
    (him : s.min_interval ≤ s.max_silence + 1)
    (h : ScanInv s i st) (b : Bool) : ScanInv s (i + 1) (scanStep s st i b) := by
  obtain ⟨h1, h2, h3, h4, h5⟩ := h
  cases b with
  | true =>
    cases hss : st.silence_start with
    | none =>
      simp only [scanStep, if_true, hss]
      refine ⟨Nat.le_succ_of_le h1, ?_, h3, h4, h5⟩
      intro j hj
      simp only [Option.some.injEq] at hj
      subst hj
      exact ⟨h1, Nat.lt_succ_self i⟩
    | some k =>
      simp only [scanStep, if_true, hss]
      refine ⟨Nat.le_succ_of_le h1, ?_, h3, h4, h5⟩
      intro j hj
      have := h2 j hj
      exact ⟨this.1, Nat.lt_succ_of_lt this.2⟩
  | false =>
    cases hss : st.silence_start with
    | none =>
      simp only [scanStep, Bool.false_eq_true, if_false, hss]
      refine ⟨Nat.le_succ_of_le h1, ?_, h3, h4, h5⟩
      intro j hj
      have := h2 j hj
      exact ⟨this.1, Nat.lt_succ_of_lt this.2⟩
    | some sil =>
      obtain ⟨hcs, hsi⟩ := h2 sil hss
      simp only [scanStep, Bool.false_eq_true, if_false, hss]
      rw [usizeSub_of_le (Nat.le_of_lt hsi)]
      by_cases htrig : s.max_silence < i - sil
      · rw [if_pos htrig]
        have hce : st.clip_start ≤ sil + s.min_interval := Nat.le_add_right_of_le hcs
        have hnext : sil + s.min_interval ≤ i := by omega
        rw [usizeSub_of_le hce]
        by_cases hguard : s.min_length ≤ sil + s.min_interval - st.clip_start
        · rw [if_pos hguard]
          refine ⟨?_, ?_, ?_, ?_, ?_⟩
          · show sil + s.min_interval ≤ i + 1
            omega
          · intro j hj
            exact absurd hj (by simp)
          · intro c hc
            have hc2 : c ∈ st.chunks ++ [(st.clip_start, sil + s.min_interval)] := hc
            rcases List.mem_append.mp hc2 with hc3 | hc3
            · exact h3 c hc3
            · simp only [List.mem_singleton] at hc3
              subst hc3
              show st.clip_start + s.min_length ≤ sil + s.min_interval
              omega
          · intro c hc
            have hc2 : c ∈ st.chunks ++ [(st.clip_start, sil + s.min_interval)] := hc
            show c.2 ≤ sil + s.min_interval
            rcases List.mem_append.mp hc2 with hc3 | hc3
            · exact le_trans (h4 c hc3) hce
            · simp only [List.mem_singleton] at hc3
              subst hc3
              exact le_refl _
          · show (st.chunks ++ [(st.clip_start, sil + s.min_interval)]).Chain' (fun a b => a.2 ≤ b.1)
            exact chain'_append_singleton h5 (fun d hd => h4 d hd)
        · rw [if_neg hguard]
          refine ⟨?_, ?_, h3, ?_, h5⟩
          · show sil + s.min_interval ≤ i + 1
            omega
          · intro j hj
            exact absurd hj (by simp)
          · intro c hc
            show c.2 ≤ sil + s.min_interval
            exact le_trans (h4 c hc) hce
      · rw [if_neg htrig]
        exact ⟨Nat.le_succ_of_le h1, by simp, h3, h4, h5⟩

theorem scanFrames_inv (s : Slicer) (silent : ℕ → Bool)
    (him : s.min_interval ≤ s.max_silence + 1) :
    ∀ n, ScanInv s n (scanFrames s silent n)
  | 0 => by
    unfold scanFrames
    exact ⟨Nat.le_refl 0, by simp, by intro c hc; simp at hc, by intro c hc; simp at hc, by simp⟩
  | n + 1 => by
    rw [scanFrames_succ]
    exact scanStep_inv him (scanFrames_inv s silent him n) _

/-- If no silent run inside the analysed frame range is longer than
`max_silence`, the scan never closes a gap: no chunk is emitted during the
scan and the clip start stays at frame 0.  The third component tracks that
a recorded `silence_start` really is the start of an ongoing silent run. -/
theorem scanFrames_no_trigger {s : Slicer} {silent : ℕ → Bool} {fc : ℕ}
    (hruns : ∀ a b, a ≤ b → b ≤ fc →
      (∀ m, a ≤ m → m < b → silent m = true) → b - a ≤ s.max_silence) :
    ∀ n, n ≤ fc →
      (scanFrames s silent n).chunks = [] ∧ (scanFrames s silent n).clip_start = 0 ∧
      ∀ j, (scanFrames s silent n).silence_start = some j →
        j < n ∧ ∀ m, j ≤ m → m < n → silent m = true
  | 0, _ => by
    unfold scanFrames
    exact ⟨rfl, rfl, by simp⟩
  | n + 1, hn => by
    obtain ⟨ih1, ih2, ih3⟩ := scanFrames_no_trigger hruns n (by omega)
    rw [scanFrames_succ]
    cases hb : silent n with
    | true =>
      cases hss : (scanFrames s silent n).silence_start with
      | none =>
        simp only [scanStep, if_true, hss]
        refine ⟨ih1, ih2, ?_⟩
        intro j hj
        simp only [Option.some.injEq] at hj
        subst hj
        refine ⟨Nat.lt_succ_self n, ?_⟩
        intro m hm1 hm2
        have hmn : m = n := by omega
        subst hmn
        exact hb
      | some k =>
        simp only [scanStep, if_true, hss]
        refine ⟨ih1, ih2, ?_⟩
        intro j hj
        simp only [Option.some.injEq] at hj
        subst hj
        obtain ⟨hjn, hrun⟩ := ih3 k hss
        refine ⟨Nat.lt_succ_of_lt hjn, ?_⟩
        intro m hm1 hm2
        by_cases hmn : m = n
        · subst hmn
          exact hb
        · exact hrun m hm1 (by omega)
    | false =>
      cases hss : (scanFrames s silent n).silence_start with
      | none =>
        simp only [scanStep, Bool.false_eq_true, if_false, hss]
        refine ⟨ih1, ih2, ?_⟩
        intro j hj
        exact absurd hj (by simp)
      | some sil =>
        obtain ⟨hsn, hrun⟩ := ih3 sil hss
        simp only [scanStep, Bool.false_eq_true, if_false, hss]
        have hnotrig : ¬ s.max_silence < usizeSub n sil := by
          rw [usizeSub_of_le (Nat.le_of_lt hsn)]
          have := hruns sil n (Nat.le_of_lt hsn) (by omega) hrun
          omega
        rw [if_neg hnotrig]
        refine ⟨ih1, ih2, ?_⟩
        intro j hj
        exact absurd hj (by simp)

/-- If every analysed frame is silent, the scan leaves the state untouched
apart from recording the silence start: no chunk is emitted and the clip
start stays at frame 0. -/
theorem scanFrames_all_silent {s : Slicer} {silent : ℕ → Bool} :
    ∀ n, (∀ i, i < n → silent i = true) →
      (scanFrames s silent n).chunks = [] ∧ (scanFrames s silent n).clip_start = 0
  | 0, _ => by
    unfold scanFrames
    exact ⟨rfl, rfl⟩
  | n + 1, hall => by
    obtain ⟨ih1, ih2⟩ := scanFrames_all_silent n (fun i hi => hall i (by omega))
    rw [scanFrames_succ, hall n (by omega)]
    cases hss : (scanFrames s silent n).silence_start with
    | none =>
      simp only [scanStep, if_true, hss]
      exact ⟨ih1, ih2⟩
    | some k =>
      simp only [scanStep, if_true, hss]
      exact ⟨ih1, ih2⟩

/-- On an all-zero buffer every in-range frame is classified silent (for a
positive linear threshold). -/
theorem frameSilent_replicate_zero {s : Slicer} {L i : ℕ} (ht : 0 < s.threshold)
    (hw : 1 ≤ s.win_size) (hlt : i * s.hop_size < L) :
    frameSilent s (List.replicate L (0 : ℚ)) i = true := by
  unfold frameSilent rmsLtB
  rw [decide_eq_true_iff]
  have hlen : 1 ≤ (frameWindow s (List.replicate L (0 : ℚ)) i).length := by
    apply frameWindow_length hw
    rwa [List.length_replicate]
  refine ⟨ht, ?_⟩
  have hzero : sumSq (frameWindow s (List.replicate L (0 : ℚ)) i) = 0 := by
    unfold sumSq
    apply List.sum_eq_zero
    intro x hx
    simp only [List.mem_map] at hx
    obtain ⟨y, hy, hxy⟩ := hx
    have hy2 : y ∈ List.replicate L (0 : ℚ) :=
      List.drop_subset _ _ (List.take_subset _ _ hy)
    have hy0 : y = 0 := List.eq_of_mem_replicate hy2
    rw [← hxy, hy0]
    ring
  rw [hzero]
  have hpos : (0 : ℚ) < (↑(frameWindow s (List.replicate L (0 : ℚ)) i).length : ℚ) := by
    exact_mod_cast hlen
  exact mul_pos (pow_pos ht 2) hpos

theorem slice_eq (s : Slicer) (samples : List ℚ) :
    s.slice samples =
      if s.min_length ≤ usizeSub (frameCount s samples.length)
          (scanFrames s (frameSilent s samples) (frameCount s samples.length)).clip_start then
        (scanFrames s (frameSilent s samples) (frameCount s samples.length)).chunks ++
          [((scanFrames s (frameSilent s samples) (frameCount s samples.length)).clip_start,
            frameCount s samples.length)]
      else (scanFrames s (frameSilent s samples) (frameCount s samples.length)).chunks :=
  rfl

/-- Claim C1, amended: for every configuration accepted by `Slicer::new`
whose derived `hop_size` is at least one sample and whose derived
`min_interval` hop count is at most `max_silence + 1`, and every sample
buffer, `Slicer::slice` returns an ordered sequence of half-open hop-index
ranges that are non-overlapping and strictly increasing, and every
returned range has length at least `min_length` hops.  (Without the
`min_interval ≤ max_silence + 1` bound the final `frame_count - clip_start`
subtraction can underflow, see the counterexample.) -/
theorem slice_sorted_minLen {cfg : SlicerConfig} {thr : ℚ} {s : Slicer}
    (h : Slicer.new cfg thr = .ok s) (hh : 1 ≤ s.hop_size)
    (him : s.min_interval ≤ s.max_silence + 1) (samples : List ℚ) :
    ChunksSorted (s.slice samples) ∧ MinLen s.min_length (s.slice samples) := by
  have hml := Slicer.one_le_min_length h hh
  obtain ⟨h1, h2, h3, h4, h5⟩ :=
    scanFrames_inv s (frameSilent s samples) him (frameCount s samples.length)
  rw [slice_eq]
  by_cases hpush : s.min_length ≤ usizeSub (frameCount s samples.length)
      (scanFrames s (frameSilent s samples) (frameCount s samples.length)).clip_start
  · rw [if_pos hpush]
    rw [usizeSub_of_le h1] at hpush
    refine ⟨⟨?_, chain'_append_singleton h5 h4⟩, ?_⟩
    · intro c hc
      rcases List.mem_append.mp hc with hc2 | hc2
      · have := h3 c hc2
        omega
      · simp only [List.mem_singleton] at hc2
        subst hc2
        show (scanFrames s (frameSilent s samples) (frameCount s samples.length)).clip_start <
          frameCount s samples.length
        omega
    · intro c hc
      rcases List.mem_append.mp hc with hc2 | hc2
      · exact h3 c hc2
      · simp only [List.mem_singleton] at hc2
        subst hc2
        show (scanFrames s (frameSilent s samples) (frameCount s samples.length)).clip_start +
          s.min_length ≤ frameCount s samples.length
        omega
  · rw [if_neg hpush]
    refine ⟨⟨?_, h5⟩, h3⟩
    intro c hc
    have := h3 c hc
    omega

/-- Claim C7: for every configuration accepted by `Slicer::new` and every
buffer whose frame RMS series contains no run of sub-threshold frames
longer than `max_silence` hops, and whose frame count is at least
`min_length` hops, `Slicer::slice` returns exactly one chunk spanning the
whole buffer. -/
theorem slice_whole_buffer_of_no_long_silence {cfg : SlicerConfig} {thr : ℚ} {s : Slicer}
    (h : Slicer.new cfg thr = .ok s) (samples : List ℚ)
    (hfcmin : s.min_length ≤ frameCount s samples.length)
    (hruns : ∀ a b, a ≤ b → b ≤ frameCount s samples.length →
      (∀ m, a ≤ m → m < b → frameSilent s samples m = true) → b - a ≤ s.max_silence) :
    s.slice samples = [(0, frameCount s samples.length)] := by
  obtain ⟨h1, h2, -⟩ :=
    scanFrames_no_trigger hruns (frameCount s samples.length) (le_refl _)
  rw [slice_eq, h2]
  rw [usizeSub_of_le (Nat.zero_le _), Nat.sub_zero, if_pos hfcmin, h1]
  simp

/-- Claim C2, amended: for every configuration accepted by `Slicer::new`
with derived `hop_size ≥ 1` and a positive derived linear threshold,
`Slicer::slice` applied to an all-zero buffer whose frame count is at
least `min_length` returns exactly ONE chunk spanning the whole buffer —
not zero chunks: the tail flush of the scan emits the remainder without
checking it for silence, and all-silent slices are only discarded
downstream by `is_silence`. -/
theorem slice_all_zero_single_chunk {cfg : SlicerConfig} {thr : ℚ} {s : Slicer} {L : ℕ}
    (h : Slicer.new cfg thr = .ok s) (hh : 1 ≤ s.hop_size) (ht : 0 < thr)
    (hfcmin : s.min_length ≤ frameCount s L) :
    s.slice (List.replicate L (0 : ℚ)) = [(0, frameCount s L)] := by
  have hthr : s.threshold = thr := ((((((((Slicer.new_ok h).2).2).2).2).2).2).2).2
  have hw := Slicer.one_le_win_size h hh
  have hlen : (List.replicate L (0 : ℚ)).length = L := List.length_replicate _ _
  have hall : ∀ i, i < frameCount s L → frameSilent s (List.replicate L (0 : ℚ)) i = true := by
    intro i hi
    apply frameSilent_replicate_zero (by rw [hthr]; exact ht) hw
    exact mul_hop_lt_of_lt_frameCount hh hi
  obtain ⟨h1, h2⟩ :=
    scanFrames_all_silent (s := s) (frameCount s L) hall
  rw [slice_eq, hlen, h2]
  rw [usizeSub_of_le (Nat.zero_le _), Nat.sub_zero, if_pos hfcmin, h1]
  simp

/-! ### Concrete instances used by counterexamples and witnesses -/

/-- The CLI default configuration (16 kHz) of `src/main.rs`. -/
def cfgDefault : SlicerConfig := ⟨16000, -55, 1000, 100, 5, 800⟩

/-- The slicer derived from `cfgDefault` (linear threshold stand-in `1/100`). -/
def slicerDefault : Slicer := ⟨80, 320, 200, 20, 160, 1 / 100⟩

/-- A configuration that satisfies the construction invariants but whose
derived `min_interval` (100 hops) far exceeds `max_silence + 1` (2 hops). -/
def cfgNarrow : SlicerConfig := ⟨1000, -40, 100, 100, 1, 1⟩

/-- The slicer derived from `cfgNarrow`. -/
def slicerNarrow : Slicer := ⟨1, 4, 100, 100, 1, 1 / 100⟩

/-- A small valid configuration: 1 kHz, all millisecond parameters 5 ms. -/
def cfgTiny : SlicerConfig := ⟨1000, -40, 5, 5, 5, 5⟩

/-- The slicer derived from `cfgTiny`: one frame per 5 samples,
`min_length = min_interval = max_silence = 1` hop. -/
def slicerTiny : Slicer := ⟨5, 5, 1, 1, 1, 1 / 100⟩

/-- Ten samples: loud at samples 0 and 6, silent elsewhere.  Under
`slicerNarrow` the frames 1-2 are a silent run that closes at frame 3,
putting `clip_start` at `1 + min_interval = 101`, far beyond the 10
analysed frames. -/
def samplesUnderflow : List ℚ := [1, 0, 0, 0, 0, 0, 1, 0, 0, 0]

unseal Rat.add Rat.mul Rat.inv Rat.sub Rat.ofScientific in
/-- Counterexample to claim C1 as stated: `cfgNarrow` satisfies the
construction invariants, yet on `samplesUnderflow` the final
`frame_count - clip_start` usize subtraction underflows (10 - 101 wraps
in a release build; a debug build panics), so `slice` emits the
decreasing range `(101, 10)` and the result is not an ordered sequence of
non-overlapping, strictly increasing ranges. -/
theorem slice_unsorted_cex :
    Slicer.new cfgNarrow (1 / 100) = .ok slicerNarrow ∧
    Slicer.slice slicerNarrow samplesUnderflow = [(0, 101), (101, 10)] ∧
    ¬ ChunksSorted (Slicer.slice slicerNarrow samplesUnderflow) :=
  ⟨rfl, by decide, by decide⟩

unseal Rat.add Rat.mul Rat.inv Rat.sub Rat.ofScientific in
/-- Witness for the amended claim C1 at the CLI default configuration and
the empty buffer. -/
theorem slice_sorted_minLen_witness :
    ChunksSorted (Slicer.slice slicerDefault []) ∧
      MinLen 200 (Slicer.slice slicerDefault []) :=
  @slice_sorted_minLen cfgDefault (1 / 100) slicerDefault rfl (by decide) (by decide) []

unseal Rat.add Rat.mul Rat.inv Rat.sub Rat.ofScientific in
/-- Counterexample to claim C2 as stated: `cfgTiny` satisfies the
construction invariants, the linear threshold stand-in `1/100` is
positive, and the all-zero buffer of 5 samples is exactly one
`min_length` duration long (`min_length * hop_size = 5`), yet `slice`
returns one chunk, not zero chunks. -/
theorem slice_all_zero_cex :
    Slicer.new cfgTiny (1 / 100) = .ok slicerTiny ∧
    (0 : ℚ) < 1 / 100 ∧
    slicerTiny.min_length * slicerTiny.hop_size ≤ 5 ∧
    Slicer.slice slicerTiny (List.replicate 5 (0 : ℚ)) = [(0, 1)] ∧
    Slicer.slice slicerTiny (List.replicate 5 (0 : ℚ)) ≠ [] :=
  ⟨rfl, by decide, by decide, by decide, by decide⟩

unseal Rat.add Rat.mul Rat.inv Rat.sub Rat.ofScientific in
/-- Witness for the amended claim C2 at `cfgTiny` and a 5-sample all-zero
buffer. -/
theorem slice_all_zero_single_chunk_witness :
    Slicer.slice slicerTiny (List.replicate 5 (0 : ℚ)) = [(0, frameCount slicerTiny 5)] :=
  @slice_all_zero_single_chunk cfgTiny (1 / 100) slicerTiny 5 rfl (by decide) (by decide)
    (by decide)

unseal Rat.add Rat.mul Rat.inv Rat.sub Rat.ofScientific in
/-- Witness for claim C7 at `cfgTiny` and a 5-sample all-ones buffer (a
single frame, so no silent run can exceed `max_silence`). -/
theorem slice_whole_buffer_witness :
    Slicer.slice slicerTiny (List.replicate 5 (1 : ℚ)) = [(0, 1)] :=
  @slice_whole_buffer_of_no_long_silence cfgTiny (1 / 100) slicerTiny rfl
    (List.replicate 5 (1 : ℚ)) (by decide)
    (by
      intro a b hab hb h3
      have he : frameCount slicerTiny (List.replicate 5 (1 : ℚ)).length = 1 := rfl
      rw [he] at hb
      have hms : slicerTiny.max_silence = 1 := rfl
      omega)

/-! ### `merge_short_chunks` -/

theorem le_maxEnd (b : ℕ) : ∀ l : List (ℕ × ℕ), b ≤ maxEnd b l
  | [] => le_refl _
  | c :: l => by
    simp only [maxEnd]
    have := le_maxEnd b l
    omega

theorem maxEnd_le_max (a b : ℕ) : ∀ l : List (ℕ × ℕ), maxEnd a l ≤ max a (maxEnd b l)
  | [] => by simp [maxEnd, le_maxEnd]
  | c :: l => by
    simp only [maxEnd]
    have := maxEnd_le_max a b l
    omega

theorem Covers.cons {l : List (ℕ × ℕ)} {f : ℕ} (c : ℕ × ℕ) (h : Covers l f) :
    Covers (c :: l) f := by
  obtain ⟨d, hd, h1, h2⟩ := h
  exact ⟨d, List.mem_cons_of_mem _ hd, h1, h2⟩

/-- Inductive specification of the running-range loop of
`merge_short_chunks` on ordered input: the output starts at `cs`; its
ranges are ordered and non-overlapping; any two adjacent output ranges
jointly exceed the cap (which is why a flush happened between them); the
output covers the running range and every input range (gaps between
merged ranges get absorbed); and every output range stays inside
`[cs, maxEnd ce l]`. -/
theorem mergeLoop_spec (mf hop : ℕ) :
    ∀ (l : List (ℕ × ℕ)) (cs ce : ℕ), cs ≤ ce →
      (∀ c ∈ l, c.1 ≤ c.2) →
      List.Chain' (fun a b => a.2 ≤ b.1) ((cs, ce) :: l) →
      (∃ e1, ce ≤ e1 ∧ (mergeLoop mf hop cs ce l).head? = some (cs, e1)) ∧
      (∀ c ∈ mergeLoop mf hop cs ce l, c.1 ≤ c.2) ∧
      List.Chain' (fun a b => a.2 ≤ b.1) (mergeLoop mf hop cs ce l) ∧
      List.Chain' (fun a b => mf < (a.2 - a.1) * hop + (b.2 - b.1) * hop)
        (mergeLoop mf hop cs ce l) ∧
      (∀ f, cs ≤ f → f < ce → Covers (mergeLoop mf hop cs ce l) f) ∧
      (∀ c ∈ l, ∀ f, c.1 ≤ f → f < c.2 → Covers (mergeLoop mf hop cs ce l) f) ∧
      (∀ c ∈ mergeLoop mf hop cs ce l, cs ≤ c.1 ∧ c.2 ≤ maxEnd ce l)
  | [], cs, ce, hce, _, _ => by
    simp only [mergeLoop]
    refine ⟨⟨ce, le_refl _, rfl⟩, ?_, ?_, ?_, ?_, ?_, ?_⟩
    · intro c hc
      simp only [List.mem_singleton] at hc
      subst hc
      exact hce
    · simp
    · simp
    · intro f h1 h2
      exact ⟨(cs, ce), by simp, h1, h2⟩
    · intro c hc
      simp at hc
    · intro c hc
      simp only [List.mem_singleton] at hc
      subst hc
      exact ⟨le_refl _, le_refl _⟩
  | (u, v) :: rest, cs, ce, hce, hall, hchain => by
    rw [List.chain'_cons] at hchain
    obtain ⟨hceu, hchain2⟩ := hchain
    have huv : u ≤ v := hall (u, v) (by simp)
    have hallrest : ∀ c ∈ rest, c.1 ≤ c.2 := fun c hc => hall c (by simp [hc])
    simp only [mergeLoop]
    by_cases hcond : (ce - cs) * hop + (v - u) * hop ≤ mf
    · rw [if_pos hcond]
      have hcsv : cs ≤ v := le_trans hce (le_trans hceu huv)
      have hchain3 : List.Chain' (fun a b => a.2 ≤ b.1) ((cs, v) :: rest) := by
        cases rest with
        | nil => simp
        | cons w ws =>
          rw [List.chain'_cons] at hchain2 ⊢
          exact ⟨hchain2.1, hchain2.2⟩
      obtain ⟨⟨e1, he1, hhead⟩, hord, hchA, hchB, hcovcur, hcovlist, hbnd⟩ :=
        mergeLoop_spec mf hop rest cs v hcsv hallrest hchain3
      refine ⟨⟨e1, le_trans (le_trans hceu huv) he1, hhead⟩, hord, hchA, hchB, ?_, ?_, ?_⟩
      · intro f h1 h2
        exact hcovcur f h1 (lt_of_lt_of_le h2 (le_trans hceu huv))
      · intro c hc
        rcases List.mem_cons.mp hc with hc2 | hc2
        · subst hc2
          intro f h1 h2
          exact hcovcur f (le_trans (le_trans hce hceu) h1) h2
        · exact hcovlist c hc2
      · intro c hc
        obtain ⟨hb1, hb2⟩ := hbnd c hc
        refine ⟨hb1, ?_⟩
        simp only [maxEnd]
        have := maxEnd_le_max v ce rest
        omega
    · rw [if_neg hcond]
      obtain ⟨⟨e1, he1, hhead⟩, hord, hchA, hchB, hcovcur, hcovlist, hbnd⟩ :=
        mergeLoop_spec mf hop rest u v huv hallrest hchain2
      refine ⟨⟨ce, le_refl _, rfl⟩, ?_, ?_, ?_, ?_, ?_, ?_⟩
      · intro c hc
        rcases List.mem_cons.mp hc with hc2 | hc2
        · subst hc2
          exact hce
        · exact hord c hc2
      · rw [List.chain'_cons']
        refine ⟨?_, hchA⟩
        intro y hy
        rw [hhead] at hy
        simp only [Option.mem_def, Option.some.injEq] at hy
        subst hy
        exact hceu
      · rw [List.chain'_cons']
        refine ⟨?_, hchB⟩
        intro y hy
        rw [hhead] at hy
        simp only [Option.mem_def, Option.some.injEq] at hy
        subst hy
        show mf < (ce - cs) * hop + (e1 - u) * hop
        have hmono : (v - u) * hop ≤ (e1 - u) * hop :=
          Nat.mul_le_mul_right _ (Nat.sub_le_sub_right he1 u)
        omega
      · intro f h1 h2
        exact ⟨(cs, ce), by simp, h1, h2⟩
      · intro c hc
        rcases List.mem_cons.mp hc with hc2 | hc2
        · subst hc2
          intro f h1 h2
          exact Covers.cons _ (hcovcur f h1 h2)
        · intro f h1 h2
          exact Covers.cons _ (hcovlist c hc2 f h1 h2)
      · intro c hc
        rcases List.mem_cons.mp hc with hc2 | hc2
        · subst hc2
          refine ⟨le_refl _, ?_⟩
          simp only [maxEnd]
          have := le_maxEnd ce rest
          omega
        · obtain ⟨hb1, hb2⟩ := hbnd c hc2
          refine ⟨le_trans (le_trans hce hceu) hb1, ?_⟩
          simp only [maxEnd]
          have := maxEnd_le_max v ce rest
          omega

/-- A list whose adjacent ranges jointly exceed the cap is a fixed point
of `merge_short_chunks`. -/
theorem merge_eq_self_of_big {md sr hop : ℕ} :
    ∀ l : List (ℕ × ℕ),
      List.Chain' (fun a b => md * sr / 1000 < (a.2 - a.1) * hop + (b.2 - b.1) * hop) l →
      merge_short_chunks l md sr hop = l
  | [], _ => rfl
  | [(a, b)], _ => by
    simp [merge_short_chunks, mergeLoop]
  | (a, b) :: (c, d) :: rest, hbig => by
    rw [List.chain'_cons] at hbig
    obtain ⟨h1, h2⟩ := hbig
    have ih := merge_eq_self_of_big ((c, d) :: rest) h2
    have h1b : md * sr / 1000 < (b - a) * hop + (d - c) * hop := h1
    simp only [merge_short_chunks] at ih ⊢
    simp only [mergeLoop]
    rw [if_neg (by omega)]
    rw [ih]

/-- Claim C4: merging is idempotent — on any strictly increasing,
non-overlapping chunk list, `merge_short_chunks` applied to its own
output (with the same parameters) returns that output unchanged. -/
theorem merge_idempotent (chunks : List (ℕ × ℕ)) (md sr hop : ℕ)
    (hs : ChunksSorted chunks) :
    merge_short_chunks (merge_short_chunks chunks md sr hop) md sr hop =
      merge_short_chunks chunks md sr hop := by
  obtain ⟨hall, hchain⟩ := hs
  cases chunks with
  | nil => rfl
  | cons c rest =>
    obtain ⟨u, v⟩ := c
    have huv : u ≤ v := le_of_lt (hall (u, v) (by simp))
    have hallrest : ∀ d ∈ rest, d.1 ≤ d.2 := fun d hd => le_of_lt (hall d (by simp [hd]))
    obtain ⟨-, -, -, hchB, -, -, -⟩ :=
      mergeLoop_spec (md * sr / 1000) hop rest u v huv hallrest hchain
    show merge_short_chunks (mergeLoop (md * sr / 1000) hop u v rest) md sr hop = _
    exact merge_eq_self_of_big _ hchB

/-- Witness for claim C4 at a concrete sorted list whose two ranges do
not fit under the cap together. -/
theorem merge_idempotent_witness :
    merge_short_chunks (merge_short_chunks [(0, 2), (3, 9)] 5 1000 1) 5 1000 1 =
      merge_short_chunks [(0, 2), (3, 9)] 5 1000 1 :=
  merge_idempotent [(0, 2), (3, 9)] 5 1000 1
    ⟨by decide, List.Chain'.cons (by decide) (List.chain'_singleton _)⟩

theorem mergeLoop_length (mf hop : ℕ) :
    ∀ (l : List (ℕ × ℕ)) (cs ce : ℕ), (mergeLoop mf hop cs ce l).length ≤ 1 + l.length
  | [], _, _ => by simp [mergeLoop]
  | (u, v) :: rest, cs, ce => by
    simp only [mergeLoop]
    by_cases hcond : (ce - cs) * hop + (v - u) * hop ≤ mf
    · rw [if_pos hcond]
      have := mergeLoop_length mf hop rest cs v
      simp only [List.length_cons]
      omega
    · rw [if_neg hcond]
      have := mergeLoop_length mf hop rest u v
      simp only [List.length_cons]
      omega

/-- Claim C8: for every input chunk list and parameters, the number of
ranges returned by `merge_short_chunks` is at most the number of input
ranges, and the empty input yields the empty output. -/
theorem merge_length_le (chunks : List (ℕ × ℕ)) (md sr hop : ℕ) :
    (merge_short_chunks chunks md sr hop).length ≤ chunks.length ∧
    merge_short_chunks ([] : List (ℕ × ℕ)) md sr hop = [] := by
  refine ⟨?_, rfl⟩
  cases chunks with
  | nil => simp [merge_short_chunks]
  | cons c rest =>
    obtain ⟨u, v⟩ := c
    have := mergeLoop_length (md * sr / 1000) hop rest u v
    show (mergeLoop (md * sr / 1000) hop u v rest).length ≤ ((u, v) :: rest).length
    simp only [List.length_cons]
    omega

/-- Counterexample to claim C3 as stated: merging `[(0,1), (5,6)]` under a
large cap produces `[(0,6)]`, which covers hop-index frame 2 even though
no input range covers it — the gap between merged chunks is absorbed, not
preserved. -/
theorem merge_covers_cex :
    merge_short_chunks [(0, 1), (5, 6)] 1000 1000 1 = [(0, 6)] ∧
    Covers (merge_short_chunks [(0, 1), (5, 6)] 1000 1000 1) 2 ∧
    ¬ Covers [(0, 1), (5, 6)] 2 := by
  refine ⟨by decide, by decide, by decide⟩

/-- Claim C3, amended: for every ordered input chunk list, every frame
covered by some INPUT range is covered by some range in the output of
`merge_short_chunks` (the reverse of the claimed direction), gaps between
input chunks that get merged are absorbed into the merged range, and the
output never covers a frame outside the convex hull
`[first start, max end)` of the input. -/
theorem merge_covers_superset_hull {u v : ℕ} {rest : List (ℕ × ℕ)} (md sr hop : ℕ)
    (hs : ChunksSorted ((u, v) :: rest)) :
    (∀ f, Covers ((u, v) :: rest) f →
      Covers (merge_short_chunks ((u, v) :: rest) md sr hop) f) ∧
    (∀ f, Covers (merge_short_chunks ((u, v) :: rest) md sr hop) f →
      u ≤ f ∧ f < maxEnd v rest) := by
  obtain ⟨hall, hchain⟩ := hs
  have huv : u ≤ v := le_of_lt (hall (u, v) (by simp))
  have hallrest : ∀ d ∈ rest, d.1 ≤ d.2 := fun d hd => le_of_lt (hall d (by simp [hd]))
  obtain ⟨-, -, -, -, hcovcur, hcovlist, hbnd⟩ :=
    mergeLoop_spec (md * sr / 1000) hop rest u v huv hallrest hchain
  constructor
  · intro f hf
    obtain ⟨c, hc, h1, h2⟩ := hf
    rcases List.mem_cons.mp hc with hc2 | hc2
    · subst hc2
      exact hcovcur f h1 h2
    · exact hcovlist c hc2 f h1 h2
  · intro f hf
    obtain ⟨c, hc, h1, h2⟩ := hf
    obtain ⟨hb1, hb2⟩ := hbnd c hc
    exact ⟨le_trans hb1 h1, lt_of_lt_of_le h2 hb2⟩

/-- Witness for the amended claim C3: frame 5 is covered by the input
`[(0,1), (5,6)]` and hence by the merged output. -/
theorem merge_covers_witness :
    Covers (merge_short_chunks [(0, 1), (5, 6)] 1000 1000 1) 5 :=
  (merge_covers_superset_hull 1000 1000 1
    ⟨by decide, List.Chain'.cons (by decide) (List.chain'_singleton _)⟩).1 5 (by decide)

/-! ### Window safety and constructor errors -/

/-- Claim C10: for every slicer built by `Slicer::new` with derived
`hop_size ≥ 1` and every non-empty buffer, each RMS window of a frame
index below the frame count starts inside the buffer, is non-empty, and
stays inside the buffer — so the RMS computation of `slice` never divides
by zero and never indexes out of bounds. -/
theorem frameWindow_nonempty_inbounds {cfg : SlicerConfig} {thr : ℚ} {s : Slicer}
    (h : Slicer.new cfg thr = .ok s) (hh : 1 ≤ s.hop_size) (samples : List ℚ)
    (hne : samples ≠ []) {i : ℕ} (hi : i < frameCount s samples.length) :
    i * s.hop_size < samples.length ∧
    1 ≤ (frameWindow s samples i).length ∧
    (frameWindow s samples i).length ≤ samples.length - i * s.hop_size := by
  have hw := Slicer.one_le_win_size h hh
  have hlt := mul_hop_lt_of_lt_frameCount hh hi
  refine ⟨hlt, frameWindow_length hw hlt, ?_⟩
  unfold frameWindow
  rw [List.length_take, List.length_drop]
  omega

unseal Rat.add Rat.mul Rat.inv Rat.sub Rat.ofScientific in
/-- Witness for claim C10 at `cfgTiny`, a 5-sample buffer and frame 0. -/
theorem frameWindow_nonempty_inbounds_witness :
    0 * slicerTiny.hop_size < (List.replicate 5 (1 : ℚ)).length ∧
    1 ≤ (frameWindow slicerTiny (List.replicate 5 (1 : ℚ)) 0).length ∧
    (frameWindow slicerTiny (List.replicate 5 (1 : ℚ)) 0).length ≤
      (List.replicate 5 (1 : ℚ)).length - 0 * slicerTiny.hop_size :=
  @frameWindow_nonempty_inbounds cfgTiny (1 / 100) slicerTiny rfl (by decide)
    (List.replicate 5 (1 : ℚ)) (by decide) 0 (by decide)

/-- Claim C6: `Slicer::new` returns an error exactly when
`min_length_ms < min_interval_ms`, or `min_interval_ms < hop_size_ms`, or
`max_silence_ms < hop_size_ms`; on every configuration satisfying the
invariant it returns a slicer. -/
theorem new_error_iff (cfg : SlicerConfig) (thr : ℚ) :
    ((∃ e, Slicer.new cfg thr = .error e) ↔
      (cfg.min_length_ms < cfg.min_interval_ms ∨ cfg.min_interval_ms < cfg.hop_size_ms ∨
        cfg.max_silence_ms < cfg.hop_size_ms)) ∧
    (¬ (cfg.min_length_ms < cfg.min_interval_ms ∨ cfg.min_interval_ms < cfg.hop_size_ms ∨
        cfg.max_silence_ms < cfg.hop_size_ms) →
      ∃ s, Slicer.new cfg thr = .ok s) := by
  unfold Slicer.new
  by_cases h1 : cfg.min_length_ms < cfg.min_interval_ms ∨ cfg.min_interval_ms < cfg.hop_size_ms
  · rw [if_pos h1]
    constructor
    · constructor
      · intro _
        tauto
      · intro _
        exact ⟨_, rfl⟩
    · intro hn
      exact absurd (by tauto) hn
  · rw [if_neg h1]
    by_cases h2 : cfg.max_silence_ms < cfg.hop_size_ms
    · rw [if_pos h2]
      constructor
      · constructor
        · intro _
          tauto
        · intro _
          exact ⟨_, rfl⟩
      · intro hn
        exact absurd (by tauto) hn
    · rw [if_neg h2]
      constructor
      · constructor
        · intro ⟨e, he⟩
          exact absurd he (by simp)
        · intro hor
          exact absurd hor (by tauto)
      · intro _
        exact ⟨_, rfl⟩

/-- Witness for claim C6: `cfgTiny` satisfies the invariant, so
construction succeeds. -/
theorem new_error_iff_witness : ∃ s, Slicer.new cfgTiny (1 / 100) = .ok s :=
  (new_error_iff cfgTiny (1 / 100)).2 (by decide)

/-! ### `is_silence` -/

/-- The mathematical RMS value `sqrt(Σx²/n)` of a sample list.  It is
used only in specification statements; the executable embedding decides
the comparison through the equivalent rational test `rmsLtB`. -/
noncomputable def rmsReal (xs : List ℚ) : ℝ :=
  Real.sqrt ((sumSq xs : ℝ) / (xs.length : ℝ))

theorem sumSq_nonneg (xs : List ℚ) : 0 ≤ sumSq xs := by
  unfold sumSq
  apply List.sum_nonneg
  intro x hx
  simp only [List.mem_map] at hx
  obtain ⟨y, -, hxy⟩ := hx
  rw [← hxy]
  exact mul_self_nonneg y

/-- On a non-empty list, the rational test of the embedding decides
exactly the comparison `rms < t` of the source. -/
theorem rmsLtB_iff {xs : List ℚ} (hne : xs ≠ []) (t : ℚ) :
    rmsLtB xs t = true ↔ rmsReal xs < (t : ℝ) := by
  unfold rmsLtB rmsReal
  rw [decide_eq_true_iff]
  have hlen : (0 : ℝ) < (xs.length : ℝ) := by
    have h0 : 0 < xs.length := List.length_pos.mpr hne
    exact_mod_cast h0
  constructor
  · rintro ⟨ht, hlt⟩
    have ht2 : (0 : ℝ) < (t : ℝ) := by exact_mod_cast ht
    rw [Real.sqrt_lt' ht2, div_lt_iff₀ hlen]
    exact_mod_cast hlt
  · intro hlt
    have hnn := Real.sqrt_nonneg ((sumSq xs : ℝ) / (xs.length : ℝ))
    have ht2 : (0 : ℝ) < (t : ℝ) := lt_of_le_of_lt hnn hlt
    have ht : (0 : ℚ) < t := by exact_mod_cast ht2
    refine ⟨ht, ?_⟩
    rw [Real.sqrt_lt' ht2, div_lt_iff₀ hlen] at hlt
    exact_mod_cast hlt

unseal Rat.add Rat.mul Rat.inv Rat.sub Rat.ofScientific in
/-- Claim C5: `is_silence` returns `true` on the empty sequence; on a
non-empty sequence it returns `true` whenever the overall RMS is strictly
below the threshold, and otherwise returns `true` exactly when the
fraction of samples whose absolute value strictly exceeds the threshold
is strictly below `min_audio_ratio`; in particular on a
constant-amplitude-1 sequence with threshold `1/2` and ratio bound `1/10`
it returns `false`. -/
theorem is_silence_spec :
    (∀ (xs : List ℚ) (t r : ℚ),
      (xs = [] → is_silence xs t r = true) ∧
      (xs ≠ [] →
        (rmsReal xs < (t : ℝ) → is_silence xs t r = true) ∧
        ((t : ℝ) ≤ rmsReal xs →
          (is_silence xs t r = true ↔
            ((xs.countP fun x => decide (t < |x|)) : ℚ) / (xs.length : ℚ) < r)))) ∧
    is_silence (List.replicate 4 (1 : ℚ)) (1 / 2) (1 / 10) = false := by
  constructor
  · intro xs t r
    constructor
    · intro he
      subst he
      rfl
    · intro hne
      have hie : xs.isEmpty = false := by
        rw [List.isEmpty_eq_false]
        exact hne
      constructor
      · intro hlt
        unfold is_silence
        rw [hie, if_neg (by simp), if_pos ((rmsLtB_iff hne t).mpr hlt)]
      · intro hge
        have hnlt : rmsLtB xs t = false := by
          rw [← Bool.not_eq_true, rmsLtB_iff hne t]
          exact not_lt.mpr hge
        unfold is_silence
        rw [hie, if_neg (by simp), if_neg (by rw [hnlt]; exact Bool.false_ne_true)]
        rw [decide_eq_true_iff]
        have hlen : (0 : ℚ) < (xs.length : ℚ) := by
          have h0 : 0 < xs.length := List.length_pos.mpr hne
          exact_mod_cast h0
        rw [div_lt_iff₀ hlen]
  · decide

/-- Witness for claim C5 at the empty sequence. -/
theorem is_silence_spec_witness : is_silence ([] : List ℚ) (1 / 2) (1 / 10) = true :=
  (is_silence_spec.1 [] (1 / 2) (1 / 10)).1 rfl

/-! ### Per-file error isolation and statistics aggregation (`src/main.rs`) -/

/-- `PerformanceStats` of `src/main.rs`; the `f64` wall times and
durations are exact rationals here. -/
structure PerformanceStats where
  total_files : ℕ
  processed_files : ℕ
  total_audio_duration : ℚ
  total_processing_time : ℚ
  total_load_time : ℚ
  total_slice_time : ℚ
  total_merge_time : ℚ
  total_save_time : ℚ
  total_chunks_detected : ℕ
  total_chunks_merged : ℕ
  total_slices_saved : ℕ
  total_saved_duration : ℚ
deriving DecidableEq, Repr

/-- `PerformanceStats::default()`: all counters zero. -/
def PerformanceStats.empty : PerformanceStats :=
  ⟨0, 0, 0, 0, 0, 0, 0, 0, 0, 0, 0, 0⟩

/-- `PerformanceStats::add`: accumulate another file's statistics
(`total_files` is deliberately not accumulated, as in the source). -/
def PerformanceStats.add (a b : PerformanceStats) : PerformanceStats :=
  { a with
    processed_files := a.processed_files + b.processed_files
    total_audio_duration := a.total_audio_duration + b.total_audio_duration
    total_processing_time := a.total_processing_time + b.total_processing_time
    total_load_time := a.total_load_time + b.total_load_time
    total_slice_time := a.total_slice_time + b.total_slice_time
    total_merge_time := a.total_merge_time + b.total_merge_time
    total_save_time := a.total_save_time + b.total_save_time
    total_chunks_detected := a.total_chunks_detected + b.total_chunks_detected
    total_chunks_merged := a.total_chunks_merged + b.total_chunks_merged
    total_slices_saved := a.total_slices_saved + b.total_slices_saved
    total_saved_duration := a.total_saved_duration + b.total_saved_duration }

/-- `FileProcessResult` of `src/main.rs`. -/
structure FileProcessResult where
  file_path : String
  stats : PerformanceStats
  success : Bool
  error : Option String
deriving DecidableEq, Repr

/-- The tail `match` of `process_single_file_threaded`: the fallible
pipeline body (decode, slice, merge, persist — all its failure points are
external IO) is abstracted by the statistics accumulated up to the return
point together with an optional error message.  `Ok(())` marks the result
successful; `Err(e)` records `e.to_string()` in the result instead of
propagating, so the function is total and the remaining files keep being
processed. -/
def process_single_file (path : String) (accumStats : PerformanceStats)
    (outcome : Option String) : FileProcessResult :=
  match outcome with
  | none => { file_path := path, stats := accumStats, success := true, error := none }
  | some e => { file_path := path, stats := accumStats, success := false, error := some e }

/-- The aggregation loop of `process_slice_command`: every successful
result's statistics are folded into the aggregate and counted; every
failed result contributes its path and message (with the default message
`"未知错误"` when absent) to the failure list. -/
def summarizeAux (acc : PerformanceStats × ℕ × List (String × String)) :
    List FileProcessResult → PerformanceStats × ℕ × List (String × String)
  | [] => acc
  | r :: rest =>
    if r.success then
      summarizeAux (acc.1.add r.stats, acc.2.1 + 1, acc.2.2) rest
    else
      summarizeAux (acc.1, acc.2.1, acc.2.2 ++ [(r.file_path, r.error.getD "未知错误")]) rest

/-- The summary fold started from an initial aggregate (the source seeds
it with `total_files` preset and everything else defaulted). -/
def summarize (init : PerformanceStats) (results : List FileProcessResult) :
    PerformanceStats × ℕ × List (String × String) :=
  summarizeAux (init, 0, []) results

theorem summarizeAux_spec :
    ∀ (files : List (String × PerformanceStats × Option String)) (a0 : PerformanceStats)
      (n0 : ℕ) (l0 : List (String × String)),
      summarizeAux (a0, n0, l0) (files.map fun x => process_single_file x.1 x.2.1 x.2.2) =
        ((files.filter fun x => x.2.2.isNone).foldl (fun a x => a.add x.2.1) a0,
          n0 + (files.filter fun x => x.2.2.isNone).length,
          l0 ++ (files.filter fun x => x.2.2.isSome).map fun x => (x.1, x.2.2.getD "未知错误"))
  | [], a0, n0, l0 => by simp [summarizeAux]
  | (p, st, o) :: rest, a0, n0, l0 => by
    cases o with
    | none =>
      have ih := summarizeAux_spec rest (a0.add st) (n0 + 1) l0
      simp only [List.map_cons, process_single_file, summarizeAux, if_pos, List.filter_cons,
        Option.isNone_none, Option.isSome_none, List.foldl_cons, List.length_cons] at ih ⊢
      rw [ih]
      simp only [Prod.mk.injEq]
      refine ⟨?_, ?_, ?_⟩ <;> first
        | trivial
        | omega
        | simp
    | some e =>
      have ih := summarizeAux_spec rest a0 n0 (l0 ++ [(p, e)])
      simp only [List.map_cons, process_single_file, summarizeAux, List.filter_cons,
        Option.isNone_some, Option.isSome_some, List.map_cons, List.foldl_cons,
        List.length_cons, Option.getD_some, Bool.false_eq_true, if_false] at ih ⊢
      rw [ih]
      simp only [Prod.mk.injEq]
      refine ⟨?_, ?_, ?_⟩ <;> first
        | trivial
        | omega
        | simp

/-- Claim C9: every per-file outcome — success or failure — yields exactly
one result (no error propagates out of the per-file function, so all
files are processed); a failing file's result carries `success = false`,
the original error message and the file path; the aggregate folds exactly
the successful files' statistics; the failure report lists exactly the
failed files with their messages; and a failed file with a non-empty
message appears in the report with that non-empty message. -/
theorem per_file_error_isolation
    (files : List (String × PerformanceStats × Option String)) (init : PerformanceStats) :
    ((files.map fun x => process_single_file x.1 x.2.1 x.2.2).length = files.length) ∧
    (∀ x ∈ files, ∀ e, x.2.2 = some e →
      (process_single_file x.1 x.2.1 x.2.2).success = false ∧
      (process_single_file x.1 x.2.1 x.2.2).error = some e ∧
      (process_single_file x.1 x.2.1 x.2.2).file_path = x.1) ∧
    ((summarize init (files.map fun x => process_single_file x.1 x.2.1 x.2.2)).1 =
      (files.filter fun x => x.2.2.isNone).foldl (fun a x => a.add x.2.1) init) ∧
    ((summarize init (files.map fun x => process_single_file x.1 x.2.1 x.2.2)).2.2 =
      (files.filter fun x => x.2.2.isSome).map fun x => (x.1, x.2.2.getD "未知错误")) ∧
    (∀ x ∈ files, ∀ e, x.2.2 = some e → e ≠ "" →
      (x.1, e) ∈
        (summarize init (files.map fun x => process_single_file x.1 x.2.1 x.2.2)).2.2) := by
  have hspec := summarizeAux_spec files init 0 []
  refine ⟨List.length_map _ _, ?_, ?_, ?_, ?_⟩
  · intro x hx e he
    rw [he]
    exact ⟨rfl, rfl, rfl⟩
  · show (summarizeAux (init, 0, []) _).1 = _
    rw [hspec]
  · show (summarizeAux (init, 0, []) _).2.2 = _
    rw [hspec]
    simp
  · intro x hx e he hne
    show (x.1, e) ∈ (summarizeAux (init, 0, []) _).2.2
    rw [hspec]
    simp only [List.nil_append]
    apply List.mem_map.mpr
    refine ⟨x, ?_, ?_⟩
    · rw [List.mem_filter]
      exact ⟨hx, by rw [he]; rfl⟩
    · rw [he]
      rfl

/-- Witness for claim C9 at a two-file batch: one success, one decode
failure. -/
theorem per_file_error_isolation_witness :
    (process_single_file "bad.mp3" PerformanceStats.empty (some "decode error")).success
        = false ∧
    (process_single_file "bad.mp3" PerformanceStats.empty (some "decode error")).error
        = some "decode error" ∧
    (process_single_file "bad.mp3" PerformanceStats.empty (some "decode error")).file_path
        = "bad.mp3" :=
  (per_file_error_isolation
      [("good.wav", PerformanceStats.empty, none),
        ("bad.mp3", PerformanceStats.empty, some "decode error")]
      PerformanceStats.empty).2.1
    ("bad.mp3", PerformanceStats.empty, some "decode error") (by simp) "decode error" rfl
